import Mathlib

/-!
Verification of the motif-span decoding and region-label reconciliation
pipeline of `src/trvz/src/input.rs`.

Modelling conventions:
* Rust `&str` / `String` values are modelled as `List Char` (all the strings
  involved are ASCII, so bytes and chars coincide).
* Rust panics (`unwrap`, out-of-bounds indexing) are modelled by `Option`:
  a function that can panic returns `none` on the panicking executions.
* Rust `Result<T, String>` is modelled by `Except (List Char) T`.
* Rust `usize` is modelled by `Nat`; every subtraction that occurs in the
  code is exercised only under hypotheses that rule out underflow, so
  truncated `Nat` subtraction agrees with the machine arithmetic there.
-/

namespace Trvz

/-! ## Generic list/string utilities (semantics of the Rust `str` methods used) -/

/-- Splitting a character list at every character satisfying `p`; the model of
Rust `str::split` with a `char` (or char-slice) pattern.  Like Rust, an empty
input yields one empty piece and separators at the ends yield empty pieces. -/
def splitOnP (p : Char → Bool) : List Char → List (List Char)
  | [] => [[]]
  | c :: cs =>
    match splitOnP p cs with
    | [] => if p c then [[], []] else [[c]]
    | g :: gs => if p c then [] :: g :: gs else (c :: g) :: gs

/-- Joining pieces with a single separator character, the inverse of
`splitOnP`; used to state the re-encoding ("round-trip") claims. -/
def joinSep (sep : Char) : List (List Char) → List Char
  | [] => []
  | [x] => x
  | x :: y :: xs => x ++ sep :: joinSep sep (y :: xs)

/-- Model of Rust `str::trim_end_matches(')')`: remove every trailing `')'`. -/
def trimEndParen (l : List Char) : List Char :=
  (l.reverse.dropWhile (fun c => c == ')')).reverse

/-- Effectful map over `Option`, the model of Rust `iter().map(...).collect()`
where the closure may panic: the first `none` aborts the whole traversal. -/
def mapMO (f : α → Option β) : List α → Option (List β)
  | [] => some []
  | x :: xs =>
    match f x, mapMO f xs with
    | some y, some ys => some (y :: ys)
    | _, _ => none

/-- Boolean test that `pat` is an initial segment of `l`. -/
def startsWith : List Char → List Char → Bool
  | [], _ => true
  | _ :: _, [] => false
  | a :: as, b :: bs => a == b && startsWith as bs

/-- Boolean substring test, used to state that an error message mentions
a read name or a locus identifier. -/
def containsSub (pat : List Char) : List Char → Bool
  | [] => pat.isEmpty
  | c :: t => startsWith pat (c :: t) || containsSub pat t

/-! ## Decimal numerals -/

/-- Numeric value of a digit character. -/
def digitVal (c : Char) : Nat := c.toNat - 48

/-- Value of a digit string, most significant digit first. -/
def parseDigits (cs : List Char) : Nat :=
  cs.foldl (fun a c => a * 10 + digitVal c) 0

/-- Digit-string requirement of Rust `str::parse::<usize>()`: non-empty and
all decimal digits. -/
def parseNatCore (t : List Char) : Option Nat :=
  if !t.isEmpty && t.all Char.isDigit then some (parseDigits t) else none

/-- Model of Rust `str::parse::<usize>()`: an optional leading `'+'`, then at
least one decimal digit.  (The `usize` overflow bound is not modelled; no
claim exercises numbers near `2^64`.) -/
def parseNat (cs : List Char) : Option Nat :=
  parseNatCore (if cs.head? = some '+' then cs.tail else cs)

/-- Digit character for a value below ten. -/
def digChar (d : Nat) : Char := Char.ofNat (48 + d)

/-- Auxiliary canonical decimal printer with explicit fuel (the fuel makes the
recursion structural; `natRepr` supplies enough fuel for any argument). -/
def natReprAux : Nat → Nat → List Char
  | 0, _ => []
  | fuel + 1, n =>
    if n < 10 then [digChar n] else natReprAux fuel (n / 10) ++ [digChar (n % 10)]

/-- Canonical decimal representation of a natural number (no sign, no leading
zeros), as produced by Rust's `Display` for `usize`. -/
def natRepr (n : Nat) : List Char := natReprAux (n + 1) n

/-! ## Data model -/

/-- Model of `struc::RegionLabel` (module not under `src/`; the variants and
their payloads are exactly those constructed and matched in `input.rs`):
a tagged half-open interval over full-allele coordinates. -/
inductive RegionLabel where
  | flank (start stop : Nat)
  | other (start stop : Nat)
  | seq (start stop : Nat)
  | tr (start stop : Nat) (motif : List Char)
  deriving DecidableEq, Repr

/-- Model of `input.rs` `struct Span` (one decoded motif occurrence, in
locus-relative coordinates).  The Rust field `end` is called `stop` here
because `end` is a Lean keyword. -/
structure Span where
  index : Nat
  start : Nat
  stop : Nat
  deriving DecidableEq, Repr

/-- Model of `locus::Locus` restricted to the fields `input.rs` reads:
identifier, flank sequences, motif list and structure descriptor.  The genomic
`region` field only parameterises the external BAM fetch and is omitted. -/
structure Locus where
  id : List Char
  leftFlank : List Char
  rightFlank : List Char
  motifs : List (List Char)
  struc : List Char
  deriving DecidableEq, Repr

/-- Model of `rust_htslib` `GenotypeAllele` as used by `get_genotype`:
a called allele index (phased or unphased) or a missing call. -/
inductive GenotypeAllele where
  | unphased (i : Nat)
  | phased (i : Nat)
  | unphasedMissing
  | phasedMissing
  deriving DecidableEq, Repr

/-- Model of `GenotypeAllele::index()`: the called index, `none` for missing. -/
def gtIndex : GenotypeAllele → Option Nat
  | .unphased i => some i
  | .phased i => some i
  | .unphasedMissing => none
  | .phasedMissing => none

/-- Model of one BCF record as consumed by `get_genotype`: the `TRID` info
field, the first sample's genotype, the REF/ALT allele sequences, and the
first sample's `MS` format string. -/
structure Record where
  trid : List Char
  genotype0 : List GenotypeAllele
  alleles : List (List Char)
  ms : List Char
  deriving DecidableEq, Repr

/-- Modelled from the spec: the base labels produced by the external labelers
`label_with_hmm` (module `label_hmm`) and `label_with_motifs` (module
`label_motifs`), which are not under `src/`.  The spec fixes only their shape
(one label per sequence position); the label content is irrelevant to every
claim, so a single-constructor type is used. -/
inductive BaseLabel where
  | base
  deriving DecidableEq, Repr

/-- Model of `locus::Allele`: one called haplotype with its sequence and its
three annotation layers. -/
structure Allele where
  seq : List Char
  regionLabels : List RegionLabel
  flankLabels : List RegionLabel
  baseLabels : List BaseLabel
  deriving DecidableEq, Repr

/-- Model of the `rust_htslib` `Aux` tag values distinguished by `get_reads`:
string, 32-bit integer, `u8` array, `u32` array, and a stand-in for every
other tag type (matched by the Rust `Ok(_)` arms). -/
inductive Aux where
  | string (v : List Char)
  | i32 (v : Int)
  | arrayU8 (v : List Nat)
  | arrayU32 (v : List Nat)
  | other
  deriving DecidableEq, Repr

/-- Model of one BAM alignment as consumed by `get_reads`: name, sequence and
the four custom tags (`none` models `read.aux(..)` returning `Err`, i.e. an
absent tag). -/
structure AlignRec where
  qname : List Char
  seq : List Char
  trTag : Option Aux
  mcTag : Option Aux
  alTag : Option Aux
  flTag : Option Aux
  deriving DecidableEq, Repr

/-- Model of `read::Read` as constructed by `get_reads`. -/
structure Read where
  seq : List Char
  leftFlank : Nat
  rightFlank : Nat
  allele : Int
  meth : Option (List Nat)
  deriving DecidableEq, Repr

/-! ## Embedding of `get_motif_spans` (input.rs lines 252-280) -/

/-- Per-item parser of `get_motif_spans`: `e.replace(')', "").replace('(',
"-").split('-')`, each piece parsed as `usize`, collected as a triple.  Every
panic (parse failure or a piece count other than three) is `none`. -/
def parseItemMotif (item : List Char) : Option (Nat × Nat × Nat) :=
  let cleaned := (item.filter (fun c => !(c == ')'))).map (fun c => if c == '(' then '-' else c)
  match mapMO parseNat (splitOnP (fun c => c == '-') cleaned) with
  | some [a, b, c] => some (a, b, c)
  | _ => none

/-- Per-allele branch of `get_motif_spans`: the absence marker `"."` decodes
to `none` (no spans), anything else is split on `'_'` and parsed item by
item.  The outer `Option` models the panics of the Rust code. -/
def decodeAllele (enc : List Char) : Option (Option (List Span)) :=
  if enc = ['.'] then some none
  else
    match mapMO parseItemMotif (splitOnP (fun c => c == '_') enc) with
    | some ts => some (some (ts.map fun t => ⟨t.1, t.2.1, t.2.2⟩))
    | none => none

/-- Model of `get_motif_spans`: split the `MS` format string on `','` and
decode each per-allele encoding. -/
def getMotifSpans (ms : List Char) : Option (List (Option (List Span))) :=
  mapMO decodeAllele (splitOnP (fun c => c == ',') ms)

/-! ## Embedding of `get_region_labels` (input.rs lines 196-250) -/

/-- Per-item parser inlined in `get_region_labels`:
`span.trim_end_matches(')').split(&['(', '-'])`, each piece parsed as
`usize`, collected as a triple. -/
def parseItemRegion (item : List Char) : Option (Nat × Nat × Nat) :=
  match mapMO parseNat (splitOnP (fun c => c == '(' || c == '-') (trimEndParen item)) with
  | some [a, b, c] => some (a, b, c)
  | _ => none

/-- Span-walking loop of `get_region_labels`: for each item, parse it, look
up the motif, shift both coordinates by the left-flank length, emit a `seq`
filler when the corrected start is not the running cursor, emit the `tr`
label, and advance the cursor to the corrected end.  Returns the emitted
labels together with the final cursor (`last_seg_end`). -/
def buildSpans (locus : Locus) : List (List Char) → Nat → Option (List RegionLabel × Nat)
  | [], cursor => some ([], cursor)
  | item :: rest, cursor =>
    match parseItemRegion item with
    | none => none
    | some (mi, s0, e0) =>
      match locus.motifs[mi]? with
      | none => none
      | some motif =>
        let s := s0 + locus.leftFlank.length
        let e := e0 + locus.leftFlank.length
        match buildSpans locus rest e with
        | none => none
        | some (tail, fin) =>
          some ((if s ≠ cursor then [RegionLabel.seq cursor s] else []) ++
            RegionLabel.tr s e motif :: tail, fin)

/-- Body of `get_region_labels` for one allele of length `alleleLen` with
per-allele `MS` encoding `enc`: the `"."` fallback emits the coarse
three-segment decomposition, otherwise the span walk runs between the two
flank labels with a trailing `seq` filler up to the right flank. -/
def regionLabelsForAllele (locus : Locus) (alleleLen : Nat) (enc : List Char) :
    Option (List RegionLabel) :=
  if enc = ['.'] then
    some [RegionLabel.flank 0 locus.leftFlank.length,
      RegionLabel.other locus.leftFlank.length (alleleLen - locus.rightFlank.length),
      RegionLabel.flank (alleleLen - locus.rightFlank.length) alleleLen]
  else
    match buildSpans locus (splitOnP (fun c => c == '_') enc) locus.leftFlank.length with
    | none => none
    | some (body, lastEnd) =>
      let trEnd := alleleLen - locus.rightFlank.length
      some (RegionLabel.flank 0 locus.leftFlank.length ::
        (body ++ (if lastEnd ≠ trEnd then [RegionLabel.seq lastEnd trEnd] else []) ++
          [RegionLabel.flank trEnd (trEnd + locus.rightFlank.length)]))

/-- Enumeration loop of `get_region_labels` over the comma-separated per-allele
encodings; `alleles[allele_index].len()` is the panicking Rust indexing,
modelled with `[·]?`. -/
def regionLoop (locus : Locus) (alleles : List (List Char)) :
    List (List Char) → Nat → Option (List (List RegionLabel))
  | [], _ => some []
  | enc :: rest, idx =>
    match alleles[idx]? with
    | none => none
    | some allele =>
      match regionLabelsForAllele locus allele.length enc with
      | none => none
      | some labels =>
        match regionLoop locus alleles rest (idx + 1) with
        | none => none
        | some tail => some (labels :: tail)

/-- Model of `get_region_labels`: one ordered `RegionLabel` list per allele. -/
def getRegionLabels (locus : Locus) (alleles : List (List Char)) (ms : List Char) :
    Option (List (List RegionLabel)) :=
  regionLoop locus alleles (splitOnP (fun c => c == ',') ms) 0

/-! ## Embedding of `get_flank_labels` (input.rs lines 282-306) -/

/-- Per-label summand of the `tr_len` computation in `get_flank_labels`:
flank labels contribute zero, every other label its length. -/
def trLenOf : RegionLabel → Nat
  | .flank _ _ => 0
  | .other s e => e - s
  | .seq s e => e - s
  | .tr s e _ => e - s

/-- Body of `get_flank_labels` for one allele: the coarse three-segment
decomposition whose middle segment has the summed non-flank length. -/
def getFlankLabelsOne (locus : Locus) (allLabels : List RegionLabel) : List RegionLabel :=
  let trLen := (allLabels.map trLenOf).sum
  let trStart := locus.leftFlank.length
  let trEnd := trStart + trLen
  [RegionLabel.flank 0 trStart,
   RegionLabel.other trStart trEnd,
   RegionLabel.flank trEnd (trEnd + locus.rightFlank.length)]

/-- Model of `get_flank_labels`. -/
def getFlankLabels (locus : Locus) (allLabelsByAllele : List (List RegionLabel)) :
    List (List RegionLabel) :=
  allLabelsByAllele.map (getFlankLabelsOne locus)

/-! ## Embedding of `get_allele_seqs`, `get_base_labels`, `get_genotype` -/

/-- Model of `get_allele_seqs` (input.rs lines 183-194): for each called
allele of the first sample's genotype, flank + called sequence + flank.
`allele.index().unwrap()` and the `record.alleles()[idx]` indexing are the
panic points. -/
def getAlleleSeqs (locus : Locus) (rec : Record) : Option (List (List Char)) :=
  mapMO (fun a =>
    match gtIndex a with
    | none => none
    | some idx =>
      match rec.alleles[idx]? with
      | none => none
      | some s => some (locus.leftFlank ++ s ++ locus.rightFlank)) rec.genotype0

/-- Modelled from the spec: `label_with_hmm` (module `label_hmm`, not under
`src/`) returns one base-label sequence per allele, one label per position. -/
def labelWithHmm (_locus : Locus) (alleles : List (List Char)) : List (List BaseLabel) :=
  alleles.map (fun a => a.map fun _ => BaseLabel.base)

/-- Modelled from the spec: `label_with_motifs` (module `label_motifs`, not
under `src/`) returns one base-label sequence per allele, one label per
position. -/
def labelWithMotifs (_locus : Locus) (_spans : List (Option (List Span)))
    (alleles : List (List Char)) : List (List BaseLabel) :=
  alleles.map (fun a => a.map fun _ => BaseLabel.base)

/-- Model of `get_base_labels` (input.rs lines 308-320): decode the motif
spans (a panic point even on the HMM path), then dispatch on whether the
structure descriptor contains `'<'`. -/
def getBaseLabels (locus : Locus) (alleles : List (List Char)) (rec : Record) :
    Option (List (List BaseLabel)) :=
  match getMotifSpans rec.ms with
  | none => none
  | some spansByAllele =>
    some (if locus.struc.contains '<' then labelWithHmm locus alleles
      else labelWithMotifs locus spansByAllele alleles)

/-- Assembly loop of `get_genotype` (input.rs lines 50-58): one `Allele` per
called sequence, indexing the three per-allele annotation lists (a panic
point when any of them is shorter than the genotype). -/
def assembleGo (regions flanks : List (List RegionLabel)) (bases : List (List BaseLabel)) :
    List (List Char) → Nat → Option (List Allele)
  | [], _ => some []
  | s :: rest, idx =>
    match regions[idx]?, flanks[idx]?, bases[idx]? with
    | some r, some f, some b =>
      match assembleGo regions flanks bases rest (idx + 1) with
      | none => none
      | some tail => some ({ seq := s, regionLabels := r, flankLabels := f, baseLabels := b } :: tail)
    | _, _, _ => none

/-- Model of `get_genotype` (input.rs lines 28-63): scan records for the first
one whose `TRID` matches the locus, fail with a genotyping-incomplete error
when the first called allele is the unphased-missing sentinel, otherwise
assemble the annotated alleles.  Record exhaustion yields the not-found
error. -/
def getGenotype (locus : Locus) : List Record → Option (Except (List Char) (List Allele))
  | [] => some (.error ("TRID=".toList ++ locus.id ++ " missing".toList))
  | rec :: rest =>
    if rec.trid ≠ locus.id then getGenotype locus rest
    else
      match rec.genotype0[0]? with
      | none => none
      | some g0 =>
        if g0 = GenotypeAllele.unphasedMissing then
          some (.error ("TRID=".toList ++ rec.trid ++ " misses genotyping".toList))
        else
          match getAlleleSeqs locus rec with
          | none => none
          | some alleleSeqs =>
            match getRegionLabels locus alleleSeqs rec.ms with
            | none => none
            | some regions =>
              match getBaseLabels locus alleleSeqs rec with
              | none => none
              | some bases =>
                match assembleGo regions (getFlankLabels locus regions) bases alleleSeqs 0 with
                | none => none
                | some genotype => some (.ok genotype)

/-! ## Embedding of `get_reads` (input.rs lines 83-181) -/

/-- Error message for a missing or non-string `TR` tag (input.rs line 101). -/
def trMsg (name : List Char) : List Char :=
  "Missing or malformed TR tag in read ".toList ++ name ++
    ". Was this BAM file generated by the latest version of TRGT?".toList

/-- Rust `{:?}` rendering of an ASCII read name: the name in double quotes. -/
def quoted (name : List Char) : List Char := '"' :: name ++ ['"']

/-- Error message for a present `MC` tag of the wrong type (line 121). -/
def mcMsg (name : List Char) : List Char :=
  "malformed MC tag in read ".toList ++ quoted name ++ ['.']

/-- Error message for a present `AL` tag of the wrong type (line 132). -/
def alMsgBad (name : List Char) : List Char :=
  "malformed AL tag in read ".toList ++ quoted name ++ ['.']

/-- Error message for an absent `AL` tag (line 138). -/
def alMsgMissing (name : List Char) : List Char :=
  "malformatted read. Expected AL tag not found: ".toList ++ quoted name

/-- Error message for an `FL` tag array whose length is not two (line 148). -/
def flMsgLen (name : List Char) (found : Nat) : List Char :=
  "Malformed FL tag in read ".toList ++ quoted name ++
    ". Expected 2 values, found ".toList ++ natRepr found

/-- Error message for a present `FL` tag of the wrong type (line 158). -/
def flMsgBad (name : List Char) : List Char :=
  "malformatted FL tag in read ".toList ++ quoted name ++ ['.']

/-- Error message for an absent `FL` tag (line 164). -/
def flMsgMissing (name : List Char) : List Char :=
  "malformatted read. Expected FL tag not found: ".toList ++ quoted name

/-- Outcome of processing one alignment inside the `get_reads` loop. -/
inductive StepRes where
  | skip
  | fatal (msg : List Char)
  | keep (r : Read)
  deriving DecidableEq, Repr

/-- FL-tag validation of `get_reads` (lines 145-169): a `u32` array of
exactly two elements, anything else fatal. -/
def stepFl (r : AlignRec) (al : Int) (meth : Option (List Nat)) : StepRes :=
  match r.flTag with
  | some (.arrayU32 vs) =>
    match vs with
    | [lf, rf] => .keep { seq := r.seq, leftFlank := lf, rightFlank := rf, allele := al, meth := meth }
    | _ => .fatal (flMsgLen r.qname vs.length)
  | some _ => .fatal (flMsgBad r.qname)
  | none => .fatal (flMsgMissing r.qname)

/-- AL-tag validation of `get_reads` (lines 129-143): an `i32`, anything else
fatal (with distinct messages for wrong type and absence). -/
def stepAl (r : AlignRec) (meth : Option (List Nat)) : StepRes :=
  match r.alTag with
  | some (.i32 v) => stepFl r v meth
  | some _ => .fatal (alMsgBad r.qname)
  | none => .fatal (alMsgMissing r.qname)

/-- MC-tag handling of `get_reads` (lines 112-127): a non-empty `u8` array is
retained, an empty one or an absent tag yields `none`, a present tag of any
other type is fatal. -/
def stepMc (r : AlignRec) : StepRes :=
  match r.mcTag with
  | some (.arrayU8 v) => stepAl r (if v.isEmpty then none else some v)
  | some _ => .fatal (mcMsg r.qname)
  | none => stepAl r none

/-- Processing of one alignment by `get_reads` (lines 94-177): the `TR` tag
must be a string (else fatal), a locus mismatch skips the read, then the
MC/AL/FL tags are validated in that order. -/
def stepRead (locus : Locus) (r : AlignRec) : StepRes :=
  match r.trTag with
  | some (.string trid) => if trid = locus.id then stepMc r else .skip
  | _ => .fatal (trMsg r.qname)

/-- Model of `get_reads` over the fetched alignments: the first fatal outcome
aborts the whole call, skipped reads are dropped, kept reads are returned in
order. -/
def getReads (locus : Locus) : List AlignRec → Except (List Char) (List Read)
  | [] => .ok []
  | r :: rest =>
    match stepRead locus r with
    | .fatal m => .error m
    | .skip => getReads locus rest
    | .keep rd =>
      match getReads locus rest with
      | .error m => .error m
      | .ok rs => .ok (rd :: rs)

/-! ## Specification-side definitions used to state the claims -/

/-- Canonical encoding of one span triple as `<index>(<start>-<end>)`,
following the claim's words for the re-encoding direction. -/
def encodeItem (t : Nat × Nat × Nat) : List Char :=
  natRepr t.1 ++ '(' :: (natRepr t.2.1 ++ '-' :: (natRepr t.2.2 ++ [')']))

/-- Canonical per-allele `MS` encoding: items joined by underscores. -/
def encodeSpans (l : List (Nat × Nat × Nat)) : List Char :=
  joinSep '_' (l.map encodeItem)

/-- Well-formed per-allele `MS` encoding: the canonical encoding of some
non-empty list of span triples (decimal numerals without signs or leading
zeros). -/
def WFEnc (enc : List Char) : Prop :=
  ∃ l : List (Nat × Nat × Nat), l ≠ [] ∧ enc = encodeSpans l

/-- Start coordinate of a region label. -/
def lStart : RegionLabel → Nat
  | .flank s _ => s
  | .other s _ => s
  | .seq s _ => s
  | .tr s _ _ => s

/-- End coordinate of a region label. -/
def lEnd : RegionLabel → Nat
  | .flank _ e => e
  | .other _ e => e
  | .seq _ e => e
  | .tr _ e _ => e

/-- Length of a region label's interval. -/
def segLen (l : RegionLabel) : Nat := lEnd l - lStart l

/-- Whether a region label is a flank label. -/
def isFlankLabel : RegionLabel → Bool
  | .flank _ _ => true
  | _ => false

/-- Sum of the lengths of the non-flank segments of a label list. -/
def nonFlankSum (ls : List RegionLabel) : Nat :=
  ((ls.filter (fun l => !isFlankLabel l)).map segLen).sum

/-- Contiguous monotone chain of labels from coordinate `a` to coordinate `b`:
each label starts where its predecessor ended, never runs backwards, the
first label starts at `a` and the last ends at `b`. -/
def chainB (a b : Nat) : List RegionLabel → Bool
  | [] => a == b
  | l :: ls => (lStart l == a) && decide (a ≤ lEnd l) && chainB (lEnd l) b ls

/-- Well-formedness of a decoded span-triple list in locus-relative
coordinates: motif indices in range, occurrences sorted ascending and
non-overlapping, confined to `[0, bound]` (`bound` = repeat-body length),
with `cursor` the running end of the previous occurrence. -/
def spansOKB (motifCount cursor bound : Nat) : List (Nat × Nat × Nat) → Bool
  | [] => true
  | (i, s, e) :: rest =>
    decide (i < motifCount) && decide (cursor ≤ s) && decide (s ≤ e) &&
      decide (e ≤ bound) && spansOKB motifCount e bound rest

/-- Triples carried by a decoded span list, for the round-trip statements. -/
def spanTriples (sp : List Span) : List (Nat × Nat × Nat) :=
  sp.map fun s => (s.index, s.start, s.stop)

/-- Whether a step outcome is fatal. -/
def isFatal : StepRes → Bool
  | .fatal _ => true
  | _ => false

/-- Whether an alignment record lacks a string-typed `TR` tag. -/
def badTR (r : AlignRec) : Bool :=
  match r.trTag with
  | some (.string _) => false
  | _ => true

/-! ## Concrete fixtures used by counterexamples and witnesses -/

/-- Test locus with ten-base flanks and the single motif `CAG`. -/
def locusCAG : Locus :=
  { id := "tr1".toList
    leftFlank := List.replicate 10 'C'
    rightFlank := List.replicate 10 'G'
    motifs := ["CAG".toList]
    struc := "(CAG)n".toList }

/-- Region-label list emitted by the builder for the malformed encoding
`0(5-0)` on a 25-base allele with ten-base flanks. -/
def lsBad : List RegionLabel :=
  [RegionLabel.flank 0 10, RegionLabel.seq 10 15, RegionLabel.tr 15 10 "CAG".toList,
   RegionLabel.seq 10 15, RegionLabel.flank 15 25]

/-- Variant record whose first sample's genotype has a called first allele and
an unphased-missing second allele, for the C2 counterexample. -/
def recMissingSecond : Record :=
  { trid := "tr1".toList
    genotype0 := [GenotypeAllele.unphased 0, GenotypeAllele.unphasedMissing]
    alleles := ["CAGCAG".toList]
    ms := ".".toList }

/-- Alignment whose `MC` tag is present but of integer type, with every other
tag valid, for the C8 counterexample. -/
def readBadMc : AlignRec :=
  { qname := "read1".toList
    seq := "ACGT".toList
    trTag := some (Aux.string "tr1".toList)
    mcTag := some (Aux.i32 3)
    alTag := some (Aux.i32 0)
    flTag := some (Aux.arrayU32 [10, 10]) }

/-- Variant record whose first called allele is the unphased-missing sentinel,
for the C2 witness. -/
def recMissingFirst : Record :=
  { trid := "tr1".toList
    genotype0 := [GenotypeAllele.unphasedMissing, GenotypeAllele.unphasedMissing]
    alleles := ["CAGCAG".toList]
    ms := ".,.".toList }

/-- Alignment with no `TR` tag at all, for the C5 witness. -/
def readNoTr : AlignRec :=
  { qname := "read2".toList
    seq := "ACGT".toList
    trTag := none
    mcTag := some (Aux.arrayU8 [1])
    alTag := some (Aux.i32 0)
    flTag := some (Aux.arrayU32 [10, 10]) }

/-- Alignment whose string `TR` tag names a different locus, with valid
remaining tags, for the C5 witness. -/
def readOtherLocus : AlignRec :=
  { qname := "read3".toList
    seq := "ACGT".toList
    trTag := some (Aux.string "tr2".toList)
    mcTag := some (Aux.arrayU8 [1])
    alTag := some (Aux.i32 0)
    flTag := some (Aux.arrayU32 [10, 10]) }

/-- Alignment with a valid non-empty `MC` byte array, for the C8 witness. -/
def readGoodMc : AlignRec :=
  { qname := "read4".toList
    seq := "ACGT".toList
    trTag := some (Aux.string "tr1".toList)
    mcTag := some (Aux.arrayU8 [5, 6])
    alTag := some (Aux.i32 0)
    flTag := some (Aux.arrayU32 [3, 4]) }

/-- Alignment whose `TR` tag names a different locus while its `MC`, `AL`
and `FL` tags are all malformed or absent, for the C10 witness. -/
def readMismatchBadTags : AlignRec :=
  { qname := "read5".toList
    seq := "ACGT".toList
    trTag := some (Aux.string "tr9".toList)
    mcTag := some Aux.other
    alTag := none
    flTag := some (Aux.arrayU32 [1, 2, 3]) }

/-! ## Lemmas about the string utilities -/

theorem splitOnP_ne_nil (p : Char → Bool) (l : List Char) : splitOnP p l ≠ [] := by
  cases l with
  | nil => simp [splitOnP]
  | cons c cs =>
    simp only [splitOnP]
    rcases h : splitOnP p cs with _ | ⟨g, gs⟩ <;> dsimp <;> split <;> simp

theorem splitOnP_cons_pos {p : Char → Bool} {c : Char} (cs : List Char) (h : p c = true) :
    splitOnP p (c :: cs) = [] :: splitOnP p cs := by
  simp only [splitOnP]
  rcases hr : splitOnP p cs with _ | ⟨g, gs⟩
  · exact absurd hr (splitOnP_ne_nil p cs)
  · simp [h]

theorem splitOnP_cons_neg {p : Char → Bool} {c : Char} {cs g : List Char}
    {gs : List (List Char)} (h : p c = false) (hr : splitOnP p cs = g :: gs) :
    splitOnP p (c :: cs) = (c :: g) :: gs := by
  simp only [splitOnP, hr, h]
  simp

theorem splitOnP_all_neg {p : Char → Bool} : ∀ {l : List Char},
    (∀ c ∈ l, p c = false) → splitOnP p l = [l] := by
  intro l
  induction l with
  | nil => intro _; rfl
  | cons c cs ih =>
    intro h
    have hc : p c = false := h c (by simp)
    have hr := ih (fun x hx => h x (by simp [hx]))
    exact splitOnP_cons_neg hc hr

theorem splitOnP_append_sep {p : Char → Bool} {d : Char} (hd : p d = true) :
    ∀ {a : List Char} (b : List Char), (∀ c ∈ a, p c = false) →
    splitOnP p (a ++ d :: b) = a :: splitOnP p b := by
  intro a
  induction a with
  | nil => intro b _; simpa using splitOnP_cons_pos b hd
  | cons x a' ih =>
    intro b h
    have hx : p x = false := h x (by simp)
    have hr := ih b (fun c hc => h c (by simp [hc]))
    simpa using splitOnP_cons_neg hx hr

theorem splitOnP_joinSep {p : Char → Bool} {sep : Char} (hsep : p sep = true) :
    ∀ parts : List (List Char), parts ≠ [] →
    (∀ x ∈ parts, ∀ c ∈ x, p c = false) →
    splitOnP p (joinSep sep parts) = parts := by
  intro parts
  induction parts with
  | nil => intro h; exact absurd rfl h
  | cons x rest ih =>
    intro _ hchars
    cases rest with
    | nil => exact splitOnP_all_neg (hchars x (by simp))
    | cons y ys =>
      have hx : ∀ c ∈ x, p c = false := hchars x (by simp)
      have hr := ih (by simp) (fun z hz c hc => hchars z (by simp [hz]) c hc)
      calc splitOnP p (joinSep sep (x :: y :: ys))
          = splitOnP p (x ++ sep :: joinSep sep (y :: ys)) := by rfl
        _ = x :: splitOnP p (joinSep sep (y :: ys)) := splitOnP_append_sep hsep _ hx
        _ = x :: y :: ys := by rw [hr]

theorem mapMO_none {f : α → Option β} : ∀ {l : List α} {x : α},
    x ∈ l → f x = none → mapMO f l = none := by
  intro l
  induction l with
  | nil => intro x hx; simp at hx
  | cons a as ih =>
    intro x hx hfx
    rcases List.mem_cons.mp hx with h | h
    · subst h; simp [mapMO, hfx]
    · simp only [mapMO, ih h hfx]
      cases f a <;> rfl

theorem mapMO_map_some {f : α → Option β} {g : α → β} : ∀ {l : List α},
    (∀ x ∈ l, f x = some (g x)) → mapMO f l = some (l.map g) := by
  intro l
  induction l with
  | nil => intro _; rfl
  | cons a as ih =>
    intro h
    have ha := h a (by simp)
    have hr := ih (fun x hx => h x (by simp [hx]))
    simp [mapMO, ha, hr]

theorem startsWith_append_self : ∀ (p b : List Char), startsWith p (p ++ b) = true := by
  intro p
  induction p with
  | nil => intro b; rfl
  | cons c cs ih => intro b; simp [startsWith, ih b]

theorem containsSub_append (p : List Char) : ∀ (a b : List Char),
    containsSub p (a ++ (p ++ b)) = true := by
  intro a
  induction a with
  | nil =>
    intro b
    rw [List.nil_append]
    cases hpb : (p ++ b : List Char) with
    | nil =>
      rcases List.append_eq_nil.mp hpb with ⟨hp, hb⟩
      subst hp; subst hb
      rfl
    | cons c t =>
      rw [containsSub, ← hpb, startsWith_append_self]
      simp
  | cons x a' ih =>
    intro b
    rw [List.cons_append, containsSub, ih b]
    simp

/-! ## Lemmas about decimal numerals -/

theorem digitVal_digChar {d : Nat} (h : d < 10) : digitVal (digChar d) = d := by
  interval_cases d <;> decide

theorem digChar_mem_digits {d : Nat} (h : d < 10) :
    digChar d ∈ "0123456789".toList := by
  interval_cases d <;> decide

theorem parseDigits_append_one (a : List Char) (c : Char) :
    parseDigits (a ++ [c]) = parseDigits a * 10 + digitVal c := by
  simp [parseDigits, List.foldl_append]

theorem natReprAux_ok : ∀ (fuel n : Nat), 0 < fuel → n < 10 ^ fuel →
    natReprAux fuel n ≠ [] ∧ (∀ c ∈ natReprAux fuel n, c ∈ "0123456789".toList) ∧
      parseDigits (natReprAux fuel n) = n := by
  intro fuel
  induction fuel with
  | zero => intro n h; omega
  | succ f ih =>
    intro n _ hn
    by_cases hsmall : n < 10
    · refine ⟨by simp [natReprAux, hsmall], ?_, ?_⟩
      · intro c hc
        simp only [natReprAux, if_pos hsmall, List.mem_singleton] at hc
        subst hc
        exact digChar_mem_digits hsmall
      · simp [natReprAux, hsmall, parseDigits, digitVal_digChar hsmall]
    · have hf : 0 < f := by
        rcases Nat.eq_zero_or_pos f with h0 | h0
        · subst h0; simp at hn; omega
        · exact h0
      have hdiv : n / 10 < 10 ^ f := by
        have h10 : (10 : Nat) ^ (f + 1) = 10 ^ f * 10 := pow_succ 10 f
        have hlt : n < 10 ^ f * 10 := by omega
        exact (Nat.div_lt_iff_lt_mul (by norm_num : (0:Nat) < 10)).mpr hlt
      obtain ⟨hne, hmem, hval⟩ := ih (n / 10) hf hdiv
      have hmod : n % 10 < 10 := Nat.mod_lt _ (by norm_num)
      refine ⟨by simp [natReprAux, hsmall], ?_, ?_⟩
      · intro c hc
        simp only [natReprAux, if_neg hsmall, List.mem_append, List.mem_singleton] at hc
        rcases hc with hc | hc
        · exact hmem c hc
        · subst hc; exact digChar_mem_digits hmod
      · rw [natReprAux, if_neg hsmall, parseDigits_append_one, hval,
          digitVal_digChar hmod]
        omega

theorem lt_ten_pow_succ (n : Nat) : n < 10 ^ (n + 1) := by
  induction n with
  | zero => decide
  | succ k ih =>
    have h1 : (10:Nat) ^ (k + 2) = 10 ^ (k + 1) * 10 := pow_succ 10 (k + 1)
    have h2 : 1 ≤ (10:Nat) ^ (k + 1) := Nat.one_le_pow _ _ (by norm_num)
    omega

theorem natRepr_ok (n : Nat) : natRepr n ≠ [] ∧
    (∀ c ∈ natRepr n, c ∈ "0123456789".toList) ∧ parseDigits (natRepr n) = n :=
  natReprAux_ok (n + 1) n (Nat.succ_pos n) (lt_ten_pow_succ n)

theorem digit_char_props {c : Char} (h : c ∈ "0123456789".toList) :
    c.isDigit = true ∧ c ≠ '+' ∧ c ≠ '(' ∧ c ≠ ')' ∧ c ≠ '-' ∧ c ≠ '_' ∧
      c ≠ ',' ∧ c ≠ '.' := by
  fin_cases h <;> decide

theorem parseNat_natRepr (n : Nat) : parseNat (natRepr n) = some n := by
  obtain ⟨hne, hmem, hval⟩ := natRepr_ok n
  have hplus : ¬ (natRepr n).head? = some '+' := by
    cases hl : natRepr n with
    | nil => exact absurd hl hne
    | cons c t =>
      simp only [List.head?_cons, Option.some.injEq]
      intro hc
      have hcmem : c ∈ natRepr n := by
        rw [hl]; exact List.mem_cons_self c t
      exact (digit_char_props (hmem c hcmem)).2.1 hc
  have hempty : (natRepr n).isEmpty = false := by
    cases hl : natRepr n with
    | nil => exact absurd hl hne
    | cons c t => rfl
  have hall : (natRepr n).all Char.isDigit = true := by
    rw [List.all_eq_true]
    intro c hc
    exact (digit_char_props (hmem c hc)).1
  rw [parseNat, if_neg hplus, parseNatCore, hempty, hall]
  simp [hval]

/-! ## Round-trip lemmas for the two embedded span parsers -/

theorem natRepr_mem_digits {n : Nat} {c : Char} (hc : c ∈ natRepr n) :
    c ∈ "0123456789".toList :=
  (natRepr_ok n).2.1 c hc

theorem map_id_of_mem {f : Char → Char} : ∀ {l : List Char},
    (∀ c ∈ l, f c = c) → l.map f = l := by
  intro l
  induction l with
  | nil => intro _; rfl
  | cons c cs ih =>
    intro h
    rw [List.map_cons, h c (by simp), ih (fun x hx => h x (by simp [hx]))]

theorem filter_natRepr (n : Nat) :
    (natRepr n).filter (fun c => !(c == ')')) = natRepr n := by
  apply List.filter_eq_self.mpr
  intro c hc
  have := (digit_char_props (natRepr_mem_digits hc)).2.2.2.1
  simp [this]

theorem map_natRepr (n : Nat) :
    (natRepr n).map (fun c => if c == '(' then '-' else c) = natRepr n := by
  apply map_id_of_mem
  intro c hc
  have := (digit_char_props (natRepr_mem_digits hc)).2.2.1
  simp [this]

theorem natRepr_no_dash {n : Nat} {c : Char} (hc : c ∈ natRepr n) :
    (c == '-') = false := by
  have := (digit_char_props (natRepr_mem_digits hc)).2.2.2.2.1
  simp [this]

theorem natRepr_no_paren_dash {n : Nat} {c : Char} (hc : c ∈ natRepr n) :
    (c == '(' || c == '-') = false := by
  have h1 := (digit_char_props (natRepr_mem_digits hc)).2.2.1
  have h2 := (digit_char_props (natRepr_mem_digits hc)).2.2.2.2.1
  simp [h1, h2]

theorem mapMO_parseNat_three (i s e : Nat) :
    mapMO parseNat [natRepr i, natRepr s, natRepr e] = some [i, s, e] := by
  simp [mapMO, parseNat_natRepr]

theorem parseItemMotif_encode (t : Nat × Nat × Nat) :
    parseItemMotif (encodeItem t) = some t := by
  obtain ⟨i, s, e⟩ := t
  have hfilter : (encodeItem (i, s, e)).filter (fun c => !(c == ')')) =
      natRepr i ++ '(' :: (natRepr s ++ '-' :: natRepr e) := by
    simp only [encodeItem, List.filter_append, List.filter_cons, filter_natRepr]
    simp [filter_natRepr]
  have hmap : ((natRepr i ++ '(' :: (natRepr s ++ '-' :: natRepr e)).map
      (fun c => if c == '(' then '-' else c)) =
      natRepr i ++ '-' :: (natRepr s ++ '-' :: natRepr e) := by
    simp only [List.map_append, List.map_cons, map_natRepr]
    simp [map_natRepr]
  have hsplit : splitOnP (fun c => c == '-') (natRepr i ++ '-' :: (natRepr s ++ '-' :: natRepr e)) =
      [natRepr i, natRepr s, natRepr e] := by
    rw [splitOnP_append_sep (by decide) _ (fun c hc => natRepr_no_dash hc),
      splitOnP_append_sep (by decide) _ (fun c hc => natRepr_no_dash hc),
      splitOnP_all_neg (fun c hc => natRepr_no_dash hc)]
  rw [parseItemMotif]
  simp only [hfilter, hmap, hsplit, mapMO_parseNat_three]

theorem getLast?_append_cons_ne {d : Char} {a b : List Char} (hb : b ≠ []) :
    (a ++ d :: b).getLast? = b.getLast? := by
  rw [List.getLast?_append_cons]
  cases b with
  | nil => exact absurd rfl hb
  | cons x t => exact List.getLast?_cons_cons

theorem dropWhile_reverse_eq {p : Char → Bool} {l : List Char}
    (h : ∀ c, l.getLast? = some c → p c = false) :
    l.reverse.dropWhile p = l.reverse := by
  cases hx : l.reverse with
  | nil => rfl
  | cons d t =>
    have hd : l.getLast? = some d := by
      rw [← List.head?_reverse, hx]
      rfl
    rw [List.dropWhile_cons, h d hd]
    simp

theorem trimEndParen_encodeItem (t : Nat × Nat × Nat) :
    trimEndParen (encodeItem t) =
      natRepr t.1 ++ '(' :: (natRepr t.2.1 ++ '-' :: natRepr t.2.2) := by
  obtain ⟨i, s, e⟩ := t
  have hassoc : encodeItem (i, s, e) =
      (natRepr i ++ '(' :: (natRepr s ++ '-' :: natRepr e)) ++ [')'] := by
    simp [encodeItem]
  rw [trimEndParen, hassoc, List.reverse_append]
  have hrev : ([')'] : List Char).reverse = [')'] := rfl
  rw [hrev]
  have hstep : List.dropWhile (fun c => c == ')')
      (')' :: (natRepr i ++ '(' :: (natRepr s ++ '-' :: natRepr e)).reverse) =
      List.dropWhile (fun c => c == ')')
        (natRepr i ++ '(' :: (natRepr s ++ '-' :: natRepr e)).reverse := by
    rw [List.dropWhile_cons]
    simp
  rw [List.singleton_append, hstep, dropWhile_reverse_eq, List.reverse_reverse]
  intro c hc
  have hlast : (natRepr i ++ '(' :: (natRepr s ++ '-' :: natRepr e)).getLast? =
      (natRepr e).getLast? := by
    rw [getLast?_append_cons_ne (by simp : (natRepr s ++ '-' :: natRepr e : List Char) ≠ []),
      getLast?_append_cons_ne (natRepr_ok e).1]
  rw [hlast] at hc
  have hmem : c ∈ natRepr e := List.mem_of_mem_getLast? hc
  have := (digit_char_props (natRepr_mem_digits hmem)).2.2.2.1
  simp [this]

theorem parseItemRegion_encode (t : Nat × Nat × Nat) :
    parseItemRegion (encodeItem t) = some t := by
  obtain ⟨i, s, e⟩ := t
  have hsplit : splitOnP (fun c => c == '(' || c == '-')
      (natRepr i ++ '(' :: (natRepr s ++ '-' :: natRepr e)) =
      [natRepr i, natRepr s, natRepr e] := by
    rw [splitOnP_append_sep (by decide) _ (fun c hc => natRepr_no_paren_dash hc),
      splitOnP_append_sep (by decide) _ (fun c hc => natRepr_no_paren_dash hc),
      splitOnP_all_neg (fun c hc => natRepr_no_paren_dash hc)]
  rw [parseItemRegion, trimEndParen_encodeItem]
  simp only [hsplit, mapMO_parseNat_three]

theorem encodeItem_chars {t : Nat × Nat × Nat} {c : Char} (hc : c ∈ encodeItem t) :
    c ∈ "0123456789()-".toList := by
  obtain ⟨i, s, e⟩ := t
  simp only [encodeItem, List.mem_append, List.mem_cons] at hc
  have hsub : ∀ d ∈ "0123456789".toList, d ∈ "0123456789()-".toList := by decide
  rcases hc with h | h | h
  · exact hsub c (natRepr_mem_digits h)
  · subst h; decide
  · rcases h with h | h
    · exact hsub c (natRepr_mem_digits h)
    · rcases h with h | h
      · subst h; decide
      · rcases h with h | h
        · exact hsub c (natRepr_mem_digits h)
        · rcases h with h | h
          · subst h; decide
          · simp at h

theorem encodeItem_no_underscore {t : Nat × Nat × Nat} {c : Char}
    (hc : c ∈ encodeItem t) : (c == '_') = false := by
  have := encodeItem_chars hc
  fin_cases this <;> decide

theorem splitOnP_encodeSpans {l : List (Nat × Nat × Nat)} (hl : l ≠ []) :
    splitOnP (fun c => c == '_') (encodeSpans l) = l.map encodeItem := by
  rw [encodeSpans]
  apply splitOnP_joinSep (by decide)
  · simp [hl]
  · intro x hx c hc
    rcases List.mem_map.mp hx with ⟨t, _, ht⟩
    subst ht
    exact encodeItem_no_underscore hc

theorem encodeSpans_mem_chars : ∀ {l : List (Nat × Nat × Nat)} {c : Char},
    c ∈ encodeSpans l → c ∈ "0123456789()-_".toList := by
  have hsub : ∀ d ∈ "0123456789()-".toList, d ∈ "0123456789()-_".toList := by decide
  intro l
  induction l with
  | nil => intro c hc; simp [encodeSpans, joinSep] at hc
  | cons t rest ih =>
    intro c hc
    cases rest with
    | nil =>
      simp only [encodeSpans, List.map_cons, List.map_nil, joinSep] at hc
      exact hsub c (encodeItem_chars hc)
    | cons t2 r2 =>
      simp only [encodeSpans, List.map_cons, joinSep, List.mem_append,
        List.mem_cons] at hc
      rcases hc with h | h | h
      · exact hsub c (encodeItem_chars h)
      · subst h; decide
      · exact ih (by simpa [encodeSpans] using h)

theorem encodeSpans_ne_dot {l : List (Nat × Nat × Nat)} :
    ¬ encodeSpans l = ['.'] := by
  intro h
  have hmem : '.' ∈ encodeSpans l := by rw [h]; simp
  exact absurd (encodeSpans_mem_chars hmem) (by decide)

theorem mapMO_encodeItems {f : List Char → Option (Nat × Nat × Nat)}
    (hf : ∀ t, f (encodeItem t) = some t) :
    ∀ l : List (Nat × Nat × Nat), mapMO f (l.map encodeItem) = some l := by
  intro l
  induction l with
  | nil => rfl
  | cons t rest ih => simp [mapMO, hf t, ih]

theorem decodeAllele_encode {l : List (Nat × Nat × Nat)} (hl : l ≠ []) :
    decodeAllele (encodeSpans l) =
      some (some (l.map fun t => ⟨t.1, t.2.1, t.2.2⟩)) := by
  rw [decodeAllele, if_neg encodeSpans_ne_dot, splitOnP_encodeSpans hl,
    mapMO_encodeItems parseItemMotif_encode]

theorem regionTriples_encode {l : List (Nat × Nat × Nat)} (hl : l ≠ []) :
    mapMO parseItemRegion (splitOnP (fun c => c == '_') (encodeSpans l)) = some l := by
  rw [splitOnP_encodeSpans hl, mapMO_encodeItems parseItemRegion_encode]

theorem motifTriples_encode {l : List (Nat × Nat × Nat)} (hl : l ≠ []) :
    mapMO parseItemMotif (splitOnP (fun c => c == '_') (encodeSpans l)) = some l := by
  rw [splitOnP_encodeSpans hl, mapMO_encodeItems parseItemMotif_encode]

/-! ## Chain invariant lemmas -/

theorem chainB_nil_iff {a b : Nat} : chainB a b [] = true ↔ a = b := by
  simp [chainB]

theorem chainB_cons_of {a b : Nat} {l : RegionLabel} {ls : List RegionLabel}
    (h1 : lStart l = a) (h2 : a ≤ lEnd l) (h3 : chainB (lEnd l) b ls = true) :
    chainB a b (l :: ls) = true := by
  simp [chainB, h1, h2, h3]

theorem chainB_append_of {a b c : Nat} : ∀ {xs ys : List RegionLabel},
    chainB a b xs = true → chainB b c ys = true → chainB a c (xs ++ ys) = true := by
  intro xs
  induction xs generalizing a with
  | nil =>
    intro ys h1 h2
    have : a = b := chainB_nil_iff.mp h1
    subst this
    exact h2
  | cons l ls ih =>
    intro ys h1 h2
    simp only [chainB, Bool.and_eq_true, beq_iff_eq, decide_eq_true_eq] at h1
    obtain ⟨⟨hs, hle⟩, hrest⟩ := h1
    exact chainB_cons_of hs hle (ih hrest h2)

theorem chainB_le {a b : Nat} : ∀ {ls : List RegionLabel},
    chainB a b ls = true → a ≤ b := by
  intro ls
  induction ls generalizing a with
  | nil => intro h; exact le_of_eq (chainB_nil_iff.mp h)
  | cons l ls ih =>
    intro h
    simp only [chainB, Bool.and_eq_true, beq_iff_eq, decide_eq_true_eq] at h
    obtain ⟨⟨_, hle⟩, hrest⟩ := h
    exact le_trans hle (ih hrest)

theorem chainB_mem_bounds {a b : Nat} : ∀ {ls : List RegionLabel},
    chainB a b ls = true → ∀ l ∈ ls, a ≤ lStart l ∧ lStart l ≤ lEnd l ∧ lEnd l ≤ b := by
  intro ls
  induction ls generalizing a with
  | nil => intro _ l hl; simp at hl
  | cons x xs ih =>
    intro h l hl
    simp only [chainB, Bool.and_eq_true, beq_iff_eq, decide_eq_true_eq] at h
    obtain ⟨⟨hs, hle⟩, hrest⟩ := h
    rcases List.mem_cons.mp hl with h1 | h1
    · subst h1
      exact ⟨le_of_eq hs.symm, by omega, chainB_le hrest⟩
    · obtain ⟨ha, hb, hc⟩ := ih hrest l h1
      exact ⟨by omega, hb, hc⟩

theorem chainB_pairwise {a b : Nat} : ∀ {ls : List RegionLabel},
    chainB a b ls = true → ls.Pairwise (fun x y => lEnd x ≤ lStart y) := by
  intro ls
  induction ls generalizing a with
  | nil => intro _; exact List.Pairwise.nil
  | cons x xs ih =>
    intro h
    simp only [chainB, Bool.and_eq_true, beq_iff_eq, decide_eq_true_eq] at h
    obtain ⟨⟨_, _⟩, hrest⟩ := h
    exact List.Pairwise.cons
      (fun y hy => (chainB_mem_bounds hrest y hy).1) (ih hrest)

theorem chainB_cover {a b : Nat} : ∀ {ls : List RegionLabel},
    chainB a b ls = true → ∀ p, a ≤ p → p < b →
      ∃ l ∈ ls, lStart l ≤ p ∧ p < lEnd l := by
  intro ls
  induction ls generalizing a with
  | nil =>
    intro h p h1 h2
    have := chainB_nil_iff.mp h
    omega
  | cons x xs ih =>
    intro h p h1 h2
    simp only [chainB, Bool.and_eq_true, beq_iff_eq, decide_eq_true_eq] at h
    obtain ⟨⟨hs, hle⟩, hrest⟩ := h
    by_cases hp : p < lEnd x
    · exact ⟨x, by simp, by omega, hp⟩
    · obtain ⟨l, hl, hl1, hl2⟩ := ih hrest p (by omega) h2
      exact ⟨l, by simp [hl], hl1, hl2⟩

theorem chainB_head_start {a b : Nat} {ls : List RegionLabel}
    (h : chainB a b ls = true) (hne : ls ≠ []) :
    (ls.map lStart).head? = some a := by
  cases ls with
  | nil => exact absurd rfl hne
  | cons x xs =>
    simp only [chainB, Bool.and_eq_true, beq_iff_eq, decide_eq_true_eq] at h
    simp [h.1.1]

theorem chainB_last_end {a b : Nat} : ∀ {ls : List RegionLabel},
    chainB a b ls = true → ls ≠ [] → (ls.map lEnd).getLast? = some b := by
  intro ls
  induction ls generalizing a with
  | nil => intro _ hne; exact absurd rfl hne
  | cons x xs ih =>
    intro h _
    simp only [chainB, Bool.and_eq_true, beq_iff_eq, decide_eq_true_eq] at h
    obtain ⟨⟨_, _⟩, hrest⟩ := h
    cases xs with
    | nil =>
      have := chainB_nil_iff.mp hrest
      simp [this]
    | cons y ys =>
      rw [List.map_cons, List.map_cons, List.getLast?_cons_cons,
        ← List.map_cons lEnd y ys]
      exact ih hrest (by simp)

/-! ## The span-walk invariant of `get_region_labels` -/

theorem spansOKB_cons {mc cur bound : Nat} {i s e : Nat} {rest : List (Nat × Nat × Nat)} :
    spansOKB mc cur bound ((i, s, e) :: rest) = true ↔
      i < mc ∧ cur ≤ s ∧ s ≤ e ∧ e ≤ bound ∧ spansOKB mc e bound rest = true := by
  simp [spansOKB, Bool.and_eq_true, decide_eq_true_eq, and_assoc]

theorem buildSpans_ok (locus : Locus) (bound : Nat) :
    ∀ (spans : List (Nat × Nat × Nat)) (cur : Nat),
    cur ≤ bound →
    spansOKB locus.motifs.length cur bound spans = true →
    ∃ body fin, buildSpans locus (spans.map encodeItem) (cur + locus.leftFlank.length) =
        some (body, fin) ∧
      chainB (cur + locus.leftFlank.length) fin body = true ∧
      cur + locus.leftFlank.length ≤ fin ∧ fin ≤ bound + locus.leftFlank.length := by
  intro spans
  induction spans with
  | nil =>
    intro cur hcur _
    refine ⟨[], cur + locus.leftFlank.length, rfl, ?_, le_refl _, by omega⟩
    simp [chainB]
  | cons t rest ih =>
    intro cur hcur hok
    obtain ⟨i, s, e⟩ := t
    rw [spansOKB_cons] at hok
    obtain ⟨hi, hcs, hse, heb, hrest⟩ := hok
    obtain ⟨tail, fin, htail, hchain, hfin1, hfin2⟩ := ih e heb hrest
    obtain ⟨motif, hmotif⟩ : ∃ m, locus.motifs[i]? = some m :=
      ⟨locus.motifs[i], List.getElem?_eq_getElem hi⟩
    refine ⟨(if s + locus.leftFlank.length ≠ cur + locus.leftFlank.length then
        [RegionLabel.seq (cur + locus.leftFlank.length) (s + locus.leftFlank.length)]
      else []) ++ RegionLabel.tr (s + locus.leftFlank.length) (e + locus.leftFlank.length)
        motif :: tail, fin, ?_, ?_, ?_, hfin2⟩
    · rw [List.map_cons, buildSpans, parseItemRegion_encode]
      simp [hmotif, htail]
    · apply chainB_append_of (b := s + locus.leftFlank.length)
      · by_cases hne : s + locus.leftFlank.length = cur + locus.leftFlank.length
        · rw [if_neg (by omega)]
          exact chainB_nil_iff.mpr hne.symm
        · rw [if_pos (by omega)]
          exact chainB_cons_of rfl (by simp [lEnd]; omega)
            (chainB_nil_iff.mpr rfl)
      · exact chainB_cons_of rfl (by simp [lEnd]; omega)
          (by simpa [lEnd] using hchain)
    · omega

/-! ## Helper lemmas for the claim theorems -/

theorem tripleMap_id : ∀ l : List (Nat × Nat × Nat),
    (l.map fun t => ((t.1 : Nat), t.2.1, t.2.2)) = l := by
  intro l
  induction l with
  | nil => rfl
  | cons t rest ih => rw [List.map_cons, ih]

theorem mkSpan_injective : Function.Injective
    (fun t : Nat × Nat × Nat => (⟨t.1, t.2.1, t.2.2⟩ : Span)) := by
  intro a b hab
  obtain ⟨a1, a2, a3⟩ := a
  obtain ⟨b1, b2, b3⟩ := b
  simpa [Span.mk.injEq, Prod.ext_iff] using hab

theorem trLen_sum_eq : ∀ ls : List RegionLabel, (ls.map trLenOf).sum = nonFlankSum ls := by
  intro ls
  induction ls with
  | nil => rfl
  | cons l rest ih =>
    cases l <;>
      simp [trLenOf, nonFlankSum, isFlankLabel, segLen, lStart, lEnd, List.filter_cons] at ih ⊢ <;>
      omega

theorem flankOther_eq (locus : Locus) (ls : List RegionLabel) :
    ((getFlankLabelsOne locus ls).filter (fun l => !isFlankLabel l)).map segLen =
      [nonFlankSum ls] := by
  simp [getFlankLabelsOne, isFlankLabel, segLen, lStart, lEnd, List.filter_cons,
    trLen_sum_eq]

/-! ## Claim C3 — parse failures in the motif-span decoding -/

/-- Claim C3, counterexample: the per-allele `MS` encoding `x(0-3)` has an
occurrence field `x` that does not parse as a non-negative integer, and
`get_motif_spans` panics on it (modelled by the result `none`); no
decode-error result value exists — the function's return type
`Vec<Option<Spans>>` has no error channel at all. -/
theorem C3_counterexample : getMotifSpans "x(0-3)".toList = none := by rfl

/-- Claim C3, amended: whenever any comma-separated per-allele encoding other
than the absence marker contains an underscore-separated item that the item
parser rejects, `get_motif_spans` panics (modelled by `none`) instead of
returning a decode-error result. -/
theorem C3_amended (ms enc item : List Char)
    (hencm : enc ∈ splitOnP (fun c => c == ',') ms)
    (hdot : enc ≠ ['.'])
    (hitem : item ∈ splitOnP (fun c => c == '_') enc)
    (hbad : parseItemMotif item = none) :
    getMotifSpans ms = none := by
  have hdec : decodeAllele enc = none := by
    rw [decodeAllele, if_neg hdot, mapMO_none hitem hbad]
  rw [getMotifSpans]
  exact mapMO_none hencm hdec

/-- Claim C3 witness: concrete evaluation of the amended theorem on the
`MS` field `0(1-2),x(0-3)`. -/
theorem C3_amended_witness : getMotifSpans "0(1-2),x(0-3)".toList = none :=
  C3_amended "0(1-2),x(0-3)".toList "x(0-3)".toList "x(0-3)".toList
    (by decide) (by decide) (by decide) (by decide)

/-! ## Claim C4 — the absence-marker fallback -/

/-- Claim C4: for an allele whose `MS` encoding is the absence marker `"."`,
the Region Label Builder emits exactly `Flank(0, L)`, `Other(L, A-R)`,
`Flank(A-R, A)`, and the Flank Label Builder maps this list to itself, so the
two outputs have identical segment boundaries. -/
theorem C4_dot_fallback (locus : Locus) (A : Nat)
    (hA : locus.leftFlank.length + locus.rightFlank.length ≤ A) :
    regionLabelsForAllele locus A ['.'] =
      some [RegionLabel.flank 0 locus.leftFlank.length,
        RegionLabel.other locus.leftFlank.length (A - locus.rightFlank.length),
        RegionLabel.flank (A - locus.rightFlank.length) A] ∧
    getFlankLabelsOne locus
        [RegionLabel.flank 0 locus.leftFlank.length,
         RegionLabel.other locus.leftFlank.length (A - locus.rightFlank.length),
         RegionLabel.flank (A - locus.rightFlank.length) A] =
      [RegionLabel.flank 0 locus.leftFlank.length,
       RegionLabel.other locus.leftFlank.length (A - locus.rightFlank.length),
       RegionLabel.flank (A - locus.rightFlank.length) A] := by
  constructor
  · rw [regionLabelsForAllele, if_pos rfl]
  · simp only [getFlankLabelsOne, trLenOf, List.map_cons, List.map_nil,
      List.sum_cons, List.sum_nil, List.cons.injEq, List.nil_eq,
      RegionLabel.flank.injEq, RegionLabel.other.injEq, and_true, true_and]
    omega

/-- Claim C4 witness: the spec's concrete scenario — a 40-base allele with
10/10 flanks and encoding `"."` yields `Flank(0,10), Other(10,30),
Flank(30,40)` from both builders. -/
theorem C4_dot_fallback_witness :
    regionLabelsForAllele locusCAG 40 ['.'] =
      some [RegionLabel.flank 0 10, RegionLabel.other 10 30, RegionLabel.flank 30 40] ∧
    getFlankLabelsOne locusCAG
        [RegionLabel.flank 0 10, RegionLabel.other 10 30, RegionLabel.flank 30 40] =
      [RegionLabel.flank 0 10, RegionLabel.other 10 30, RegionLabel.flank 30 40] := by
  have h := C4_dot_fallback locusCAG 40 (by decide)
  simpa using h

/-! ## Claim C6 — non-flank length sum versus the coarse Other segment -/

/-- Claim C6: for every allele of the Region Label Builder's output, the sum
of the lengths of the non-flank segments equals the length of the (unique)
`Other` segment of the Flank Label Builder's output on the same allele. -/
theorem C6_other_length (locus : Locus) (alleles : List (List Char)) (ms : List Char)
    (rls : List (List RegionLabel)) (h : getRegionLabels locus alleles ms = some rls) :
    ∀ rl ∈ rls, ((getFlankLabelsOne locus rl).filter (fun l => !isFlankLabel l)).map segLen =
      [nonFlankSum rl] := by
  intro rl _
  exact flankOther_eq locus rl

/-- Claim C6 witness: concrete evaluation on a 40-base allele with the
absence-marker encoding. -/
theorem C6_other_length_witness :
    ((getFlankLabelsOne locusCAG
        [RegionLabel.flank 0 10, RegionLabel.other 10 30, RegionLabel.flank 30 40]).filter
      (fun l => !isFlankLabel l)).map segLen =
      [nonFlankSum [RegionLabel.flank 0 10, RegionLabel.other 10 30, RegionLabel.flank 30 40]] :=
  C6_other_length locusCAG [List.replicate 40 'A'] ".".toList
    [[RegionLabel.flank 0 10, RegionLabel.other 10 30, RegionLabel.flank 30 40]]
    (by decide)
    [RegionLabel.flank 0 10, RegionLabel.other 10 30, RegionLabel.flank 30 40]
    (by decide)

/-! ## Claim C7 — round-trip and injectivity of the motif-span decoder -/

/-- Claim C7: on well-formed per-allele encodings (canonical decimal
`<index>(<start>-<end>)` items joined by underscores) the decoder
succeeds, re-encoding the decoded spans reproduces the original substring,
and consequently the decoder is injective on well-formed input. -/
theorem C7_roundtrip :
    (∀ enc, WFEnc enc → ∃ sp, decodeAllele enc = some (some sp) ∧
      encodeSpans (spanTriples sp) = enc) ∧
    (∀ e1 e2, WFEnc e1 → WFEnc e2 → decodeAllele e1 = decodeAllele e2 → e1 = e2) := by
  constructor
  · rintro enc ⟨l, hl, rfl⟩
    refine ⟨l.map fun t => ⟨t.1, t.2.1, t.2.2⟩, decodeAllele_encode hl, ?_⟩
    rw [spanTriples, List.map_map]
    rw [show ((fun s : Span => (s.index, s.start, s.stop)) ∘
      fun t : Nat × Nat × Nat => (⟨t.1, t.2.1, t.2.2⟩ : Span)) =
      (fun t : Nat × Nat × Nat => ((t.1 : Nat), t.2.1, t.2.2)) from rfl]
    rw [tripleMap_id]
  · rintro e1 e2 ⟨l1, hl1, rfl⟩ ⟨l2, hl2, rfl⟩ heq
    rw [decodeAllele_encode hl1, decodeAllele_encode hl2] at heq
    have hmaps := Option.some.inj (Option.some.inj heq)
    have : l1 = l2 := List.map_injective_iff.mpr mkSpan_injective hmaps
    rw [this]

/-- Claim C7 witness: concrete application at the well-formed encoding
`0(1-2)`. -/
theorem C7_roundtrip_witness :
    ∃ sp, decodeAllele "0(1-2)".toList = some (some sp) ∧
      encodeSpans (spanTriples sp) = "0(1-2)".toList :=
  C7_roundtrip.1 "0(1-2)".toList ⟨[(0, 1, 2)], by decide, by decide⟩

/-! ## Claim C9 — equivalence of the two embedded item parsers -/

/-- Claim C9: on well-formed per-allele encodings, the item parser inlined in
`get_region_labels` (trim trailing parens, split on `(` and `-`) and the item
parser of `get_motif_spans` (delete `)`, turn `(` into `-`, split on `-`)
produce exactly the same triples, element by element and in order. -/
theorem C9_parsers_agree (enc : List Char) (h : WFEnc enc) :
    ∃ ts, mapMO parseItemRegion (splitOnP (fun c => c == '_') enc) = some ts ∧
      mapMO parseItemMotif (splitOnP (fun c => c == '_') enc) = some ts := by
  obtain ⟨l, hl, rfl⟩ := h
  exact ⟨l, regionTriples_encode hl, motifTriples_encode hl⟩

/-- Claim C9 witness: concrete application at the well-formed encoding
`3(4-5)_0(6-7)`. -/
theorem C9_parsers_agree_witness :
    ∃ ts, mapMO parseItemRegion (splitOnP (fun c => c == '_') "3(4-5)_0(6-7)".toList) = some ts ∧
      mapMO parseItemMotif (splitOnP (fun c => c == '_') "3(4-5)_0(6-7)".toList) = some ts :=
  C9_parsers_agree "3(4-5)_0(6-7)".toList ⟨[(3, 4, 5), (0, 6, 7)], by decide, by decide⟩

/-! ## Lemmas about the `get_reads` loop -/

theorem stepRead_fatal_of_badTR {r : AlignRec} (locus : Locus) (h : badTR r = true) :
    stepRead locus r = .fatal (trMsg r.qname) := by
  rcases htr : r.trTag with _ | aux
  · rw [stepRead, htr]
  · cases aux with
    | string v => rw [badTR, htr] at h; simp at h
    | i32 v => rw [stepRead, htr]
    | arrayU8 v => rw [stepRead, htr]
    | arrayU32 v => rw [stepRead, htr]
    | other => rw [stepRead, htr]

theorem getReads_fatal_after (locus : Locus) {m : List Char} :
    ∀ (pre : List AlignRec) (r : AlignRec) (post : List AlignRec),
    (∀ x ∈ pre, isFatal (stepRead locus x) = false) →
    stepRead locus r = .fatal m →
    getReads locus (pre ++ r :: post) = .error m := by
  intro pre
  induction pre with
  | nil =>
    intro r post _ hstep
    simp [getReads, hstep]
  | cons x pre' ih =>
    intro r post hpre hstep
    have hx := hpre x (by simp)
    have hrest := ih r post (fun y hy => hpre y (by simp [hy])) hstep
    rcases hs : stepRead locus x with _ | msg | rd
    · simp [getReads, hs, hrest]
    · rw [hs] at hx; simp [isFatal] at hx
    · simp [getReads, hs, hrest]

theorem getReads_skip_mid (locus : Locus) :
    ∀ (pre : List AlignRec) (r : AlignRec) (post : List AlignRec) (v : List Char),
    r.trTag = some (Aux.string v) → v ≠ locus.id →
    getReads locus (pre ++ r :: post) = getReads locus (pre ++ post) := by
  intro pre
  induction pre with
  | nil =>
    intro r post v htag hv
    have hstep : stepRead locus r = .skip := by
      simp [stepRead, htag, hv]
    simp [getReads, hstep]
  | cons x pre' ih =>
    intro r post v htag hv
    have hrest := ih r post v htag hv
    rcases hs : stepRead locus x with _ | msg | rd
    · simp [getReads, hs, hrest]
    · simp [getReads, hs]
    · simp [getReads, hs, hrest]

/-! ## Claim C5 — TR-tag absence is fatal, TR-tag mismatch is a silent skip -/

/-- Claim C5: in `get_reads`, an alignment without a string `TR` tag whose
predecessors all process non-fatally makes the whole call fail with an error
that mentions that read's name, while an alignment whose string `TR` tag
differs from the queried locus is dropped from the result with no error,
leaving the result exactly that of the remaining alignments. -/
theorem C5_tr_tag :
    (∀ (locus : Locus) (pre : List AlignRec) (r : AlignRec) (post : List AlignRec),
      (∀ x ∈ pre, isFatal (stepRead locus x) = false) → badTR r = true →
      getReads locus (pre ++ r :: post) = .error (trMsg r.qname) ∧
        containsSub r.qname (trMsg r.qname) = true) ∧
    (∀ (locus : Locus) (pre : List AlignRec) (r : AlignRec) (post : List AlignRec)
      (v : List Char), r.trTag = some (Aux.string v) → v ≠ locus.id →
      getReads locus (pre ++ r :: post) = getReads locus (pre ++ post)) := by
  constructor
  · intro locus pre r post hpre hbad
    refine ⟨getReads_fatal_after locus pre r post hpre (stepRead_fatal_of_badTR locus hbad), ?_⟩
    rw [trMsg, List.append_assoc]
    exact containsSub_append r.qname _ _
  · intro locus pre r post v htag hv
    exact getReads_skip_mid locus pre r post v htag hv

/-- Claim C5 witness: a read with no `TR` tag makes the call fail with a
message naming it; a read tagged for locus `tr2` is silently dropped from a
query for `tr1`. -/
theorem C5_tr_tag_witness :
    (getReads locusCAG [readNoTr] = .error (trMsg readNoTr.qname) ∧
      containsSub readNoTr.qname (trMsg readNoTr.qname) = true) ∧
    getReads locusCAG [readOtherLocus] = getReads locusCAG [] :=
  ⟨C5_tr_tag.1 locusCAG [] readNoTr [] (by simp) (by decide),
   C5_tr_tag.2 locusCAG [] readOtherLocus [] "tr2".toList rfl (by decide)⟩

/-! ## Claim C8 — MC-tag handling -/

/-- Claim C8, counterexample: an alignment whose `MC` tag is present but of
integer type makes the whole `get_reads` call fail, refuting the claim that
no `MC` state causes the extraction call to fail. -/
theorem C8_counterexample :
    getReads locusCAG [readBadMc] = .error (mcMsg "read1".toList) := by rfl

/-- Claim C8, amended: for an alignment that survives the TR check and has
valid `AL` and `FL` tags, the emitted read's methylation field is `some` of
the `MC` byte array exactly when that array is present and non-empty, and
`none` when the tag is absent or the array empty; but an `MC` tag present
with a non-byte-array type makes the whole call fail. -/
theorem C8_mc_amended (locus : Locus) (r : AlignRec) (a : Int) (f g : Nat)
    (htr : r.trTag = some (Aux.string locus.id))
    (hal : r.alTag = some (Aux.i32 a))
    (hfl : r.flTag = some (Aux.arrayU32 [f, g])) :
    (r.mcTag = none →
      getReads locus [r] = .ok [⟨r.seq, f, g, a, none⟩]) ∧
    (∀ v, r.mcTag = some (Aux.arrayU8 v) →
      getReads locus [r] = .ok [⟨r.seq, f, g, a, if v.isEmpty then none else some v⟩]) ∧
    (∀ x, r.mcTag = some x → (∀ v, x ≠ Aux.arrayU8 v) →
      getReads locus [r] = .error (mcMsg r.qname)) := by
  refine ⟨?_, ?_, ?_⟩
  · intro hmc
    simp [getReads, stepRead, htr, stepMc, hmc, stepAl, hal, stepFl, hfl]
  · intro v hmc
    simp [getReads, stepRead, htr, stepMc, hmc, stepAl, hal, stepFl, hfl]
  · intro x hmc hx
    have hfatal : stepMc r = .fatal (mcMsg r.qname) := by
      cases x with
      | arrayU8 v => exact absurd rfl (hx v)
      | string v => simp [stepMc, hmc]
      | i32 v => simp [stepMc, hmc]
      | arrayU32 v => simp [stepMc, hmc]
      | other => simp [stepMc, hmc]
    simp [getReads, stepRead, htr, hfatal]

/-- Claim C8 witness: concrete evaluation of the amended theorem on a read
with a non-empty two-byte `MC` array. -/
theorem C8_mc_amended_witness :
    getReads locusCAG [readGoodMc] =
      .ok [⟨readGoodMc.seq, 3, 4, 0, if ([5, 6] : List Nat).isEmpty then none else some [5, 6]⟩] :=
  (C8_mc_amended locusCAG readGoodMc 0 3 4 rfl rfl rfl).2.1 [5, 6] rfl

/-! ## Claim C10 — the locus-mismatch skip precedes the MC/AL/FL validations -/

/-- Claim C10: an alignment whose string `TR` tag differs from the queried
locus is skipped before any `MC`, `AL` or `FL` validation, so arbitrarily
malformed or absent MC/AL/FL tags on such an alignment never fail the call:
the result equals the result on the remaining alignments. -/
theorem C10_skip_before_validation (locus : Locus) (r : AlignRec) (rest : List AlignRec)
    (v : List Char) (htag : r.trTag = some (Aux.string v)) (hv : v ≠ locus.id) :
    stepRead locus r = .skip ∧ getReads locus (r :: rest) = getReads locus rest := by
  have hstep : stepRead locus r = .skip := by
    simp [stepRead, htag, hv]
  exact ⟨hstep, by simp [getReads, hstep]⟩

/-- Claim C10 witness: a read for another locus whose `MC` tag has the wrong
type, whose `AL` tag is absent and whose `FL` array has three entries is
nevertheless silently skipped. -/
theorem C10_skip_before_validation_witness :
    stepRead locusCAG readMismatchBadTags = .skip ∧
      getReads locusCAG [readMismatchBadTags] = getReads locusCAG [] :=
  C10_skip_before_validation locusCAG readMismatchBadTags [] "tr9".toList rfl (by decide)

/-! ## Claim C2 — incomplete-genotyping detection -/

/-- Claim C2, counterexample: a matching record in which a called allele of
the first sample's genotype (the second one) is the unphased-missing sentinel
does not produce the incomplete-genotyping error: the code only tests
`gt[0]`, proceeds, and panics in `get_allele_seqs` on
`allele.index().unwrap()` (modelled by the result `none`), returning no error
value at all. -/
theorem C2_counterexample :
    recMissingSecond.genotype0.contains GenotypeAllele.unphasedMissing = true ∧
      recMissingSecond.trid = locusCAG.id ∧
      getGenotype locusCAG [recMissingSecond] = none := by
  refine ⟨by decide, by decide, by rfl⟩

/-- Claim C2, amended: when the FIRST called allele of the first sample's
genotype of the first matching record is the unphased-missing sentinel,
`get_genotype` returns the incomplete-genotyping error, which mentions the
locus identifier, and no allele list. -/
theorem C2_missing_first (locus : Locus) :
    ∀ (pre : List Record) (rec : Record) (rest : List Record),
    (∀ r ∈ pre, r.trid ≠ locus.id) →
    rec.trid = locus.id →
    rec.genotype0[0]? = some GenotypeAllele.unphasedMissing →
    getGenotype locus (pre ++ rec :: rest) =
      some (.error ("TRID=".toList ++ rec.trid ++ " misses genotyping".toList)) ∧
    containsSub locus.id ("TRID=".toList ++ rec.trid ++ " misses genotyping".toList) = true := by
  intro pre
  induction pre with
  | nil =>
    intro rec rest _ htrid hg0
    constructor
    · simp only [List.nil_append, getReads, getGenotype, htrid, hg0]
      simp
    · rw [htrid, List.append_assoc]
      exact containsSub_append locus.id _ _
  | cons r pre' ih =>
    intro rec rest hpre htrid hg0
    have hr : r.trid ≠ locus.id := hpre r (by simp)
    have := ih rec rest (fun x hx => hpre x (by simp [hx])) htrid hg0
    refine ⟨?_, this.2⟩
    rw [List.cons_append, getGenotype, if_pos hr]
    exact this.1

/-- Claim C2 witness: concrete evaluation of the amended theorem on a record
whose first genotype entry is the unphased-missing sentinel. -/
theorem C2_missing_first_witness :
    getGenotype locusCAG [recMissingFirst] =
      some (.error ("TRID=".toList ++ recMissingFirst.trid ++ " misses genotyping".toList)) ∧
    containsSub locusCAG.id
      ("TRID=".toList ++ recMissingFirst.trid ++ " misses genotyping".toList) = true :=
  C2_missing_first locusCAG [] recMissingFirst [] (by simp) (by decide) (by decide)

/-! ## Claim C1 — the region-label cover invariant -/

theorem chain_package {A : Nat} {ls : List RegionLabel}
    (h : chainB 0 A ls = true) (hne : ls ≠ []) :
    (ls.map lStart).head? = some 0 ∧ (ls.map lEnd).getLast? = some A ∧
    ls.Pairwise (fun x y => lEnd x ≤ lStart y) ∧
    (∀ l ∈ ls, lStart l ≤ lEnd l ∧ lEnd l ≤ A) ∧
    (∀ p, p < A → ∃ l ∈ ls, lStart l ≤ p ∧ p < lEnd l) :=
  ⟨chainB_head_start h hne, chainB_last_end h hne, chainB_pairwise h,
    fun l hl => ⟨(chainB_mem_bounds h l hl).2.1, (chainB_mem_bounds h l hl).2.2⟩,
    fun p hp => chainB_cover h p (Nat.zero_le p) hp⟩

/-- Claim C1, counterexample: the builder performs no well-formedness check,
so on the malformed (reversed) span encoding `0(5-0)` for a 25-base allele it
emits a label list that is not a monotone contiguous chain (the `Tr` label
runs backwards) and covers position 12 twice — refuting the unconditional
contiguous / non-overlapping / exact-cover claim. -/
theorem C1_counterexample :
    getRegionLabels locusCAG [List.replicate 25 'A'] "0(5-0)".toList = some [lsBad] ∧
    chainB 0 25 lsBad = false ∧
    lsBad.countP (fun l => decide (lStart l ≤ 12 ∧ 12 < lEnd l)) = 2 ∧
    ¬ (∀ l ∈ lsBad, lStart l ≤ lEnd l) := by
  refine ⟨by rfl, by rfl, by rfl, by decide⟩

/-- Claim C1, amended: for every allele whose per-allele `MS` encoding is
either the absence marker or the canonical encoding of a well-formed span
list (motif indices in range, occurrences sorted ascending, non-overlapping
and confined to the repeat body), and whose flanks fit inside the allele, the
emitted region-label sequence is contiguous (each label starts where its
predecessor ends), ordered, non-overlapping, starts at 0, ends at the allele
length, and covers `[0, A)` exactly. -/
theorem C1_cover_amended (locus : Locus) (A : Nat) (enc : List Char)
    (hA : locus.leftFlank.length + locus.rightFlank.length ≤ A)
    (henc : enc = ['.'] ∨ ∃ spans, spans ≠ [] ∧
      spansOKB locus.motifs.length 0
        (A - locus.rightFlank.length - locus.leftFlank.length) spans = true ∧
      enc = encodeSpans spans) :
    ∃ ls, regionLabelsForAllele locus A enc = some ls ∧ ls ≠ [] ∧
      chainB 0 A ls = true ∧
      (ls.map lStart).head? = some 0 ∧
      (ls.map lEnd).getLast? = some A ∧
      ls.Pairwise (fun x y => lEnd x ≤ lStart y) ∧
      (∀ l ∈ ls, lStart l ≤ lEnd l ∧ lEnd l ≤ A) ∧
      (∀ p, p < A → ∃ l ∈ ls, lStart l ≤ p ∧ p < lEnd l) := by
  rcases henc with hdot | ⟨spans, hne, hok, hencs⟩
  · subst hdot
    have hchain : chainB 0 A
        [RegionLabel.flank 0 locus.leftFlank.length,
         RegionLabel.other locus.leftFlank.length (A - locus.rightFlank.length),
         RegionLabel.flank (A - locus.rightFlank.length) A] = true := by
      simp only [chainB, lStart, lEnd, Bool.and_eq_true, beq_iff_eq,
        decide_eq_true_eq, true_and, and_true]
      omega
    exact ⟨_, by rw [regionLabelsForAllele, if_pos rfl], by simp, hchain,
      chain_package hchain (by simp)⟩
  · subst hencs
    obtain ⟨body, fin, hbuild, hchain, hfin1, hfin2⟩ :=
      buildSpans_ok locus (A - locus.rightFlank.length - locus.leftFlank.length)
        spans 0 (Nat.zero_le _) hok
    rw [Nat.zero_add] at hbuild hchain hfin1
    have hfin3 : fin ≤ A - locus.rightFlank.length := by omega
    have h2 : chainB fin (A - locus.rightFlank.length)
        (if fin ≠ A - locus.rightFlank.length then
          [RegionLabel.seq fin (A - locus.rightFlank.length)] else []) = true := by
      by_cases hfe : fin = A - locus.rightFlank.length
      · rw [if_neg (by omega)]
        exact chainB_nil_iff.mpr hfe
      · rw [if_pos hfe]
        exact chainB_cons_of rfl hfin3 (chainB_nil_iff.mpr rfl)
    have h3 : chainB (A - locus.rightFlank.length) A
        [RegionLabel.flank (A - locus.rightFlank.length)
          (A - locus.rightFlank.length + locus.rightFlank.length)] = true :=
      chainB_cons_of rfl (Nat.le_add_right _ _)
        (chainB_nil_iff.mpr
          (show A - locus.rightFlank.length + locus.rightFlank.length = A by omega))
    have hrest2 := chainB_append_of (chainB_append_of hchain h2) h3
    have hall : chainB 0 A
        (RegionLabel.flank 0 locus.leftFlank.length ::
          (body ++ (if fin ≠ A - locus.rightFlank.length then
            [RegionLabel.seq fin (A - locus.rightFlank.length)] else []) ++
            [RegionLabel.flank (A - locus.rightFlank.length)
              (A - locus.rightFlank.length + locus.rightFlank.length)])) = true :=
      chainB_cons_of rfl (Nat.zero_le _) hrest2
    refine ⟨_, ?_, by simp, hall, chain_package hall (by simp)⟩
    rw [regionLabelsForAllele, if_neg encodeSpans_ne_dot,
      splitOnP_encodeSpans hne, hbuild]

/-- Claim C1 witness: the spec's concrete scenario — encoding
`0(0-20)_0(25-45)` on a 65-base allele with 10/10 flanks satisfies all the
invariant conclusions. -/
theorem C1_cover_amended_witness :
    ∃ ls, regionLabelsForAllele locusCAG 65 (encodeSpans [(0, 0, 20), (0, 25, 45)]) =
        some ls ∧ ls ≠ [] ∧
      chainB 0 65 ls = true ∧
      (ls.map lStart).head? = some 0 ∧
      (ls.map lEnd).getLast? = some 65 ∧
      ls.Pairwise (fun x y => lEnd x ≤ lStart y) ∧
      (∀ l ∈ ls, lStart l ≤ lEnd l ∧ lEnd l ≤ 65) ∧
      (∀ p, p < 65 → ∃ l ∈ ls, lStart l ≤ p ∧ p < lEnd l) :=
  C1_cover_amended locusCAG 65 (encodeSpans [(0, 0, 20), (0, 25, 45)]) (by decide)
    (Or.inr ⟨[(0, 0, 20), (0, 25, 45)], by decide, by decide, rfl⟩)

end Trvz
